import Mathlib

/-!
Verification of the rendering core of the `dot-txt` repository
(`src/lib/canvas.rs`) against its natural-language specification.

Modelling conventions for the shallow embedding:
 - Rust `u16` values are natural numbers; wrap-around is explicit `% 65536`.
 - Rust `i8`/`i64` coordinates are `Int` (no operation in the embedded code
   comes near the machine bounds).
 - Rust `f64` input coordinates are exact rationals (`ℚ`); the `as i64` cast
   is truncation toward zero.
 - Rust `f64` similarity scores are exact reals (`ℝ`); `f64::INFINITY` used
   as the initial best score in `generate` is modelled by `Option ℝ` with
   `none` meaning "no candidate seen yet", which any finite score beats.
 - Rust `String`/`&str` values are `List Char`; `str::len` (UTF-8 byte
   count) is `utf8Len`; the failing `assert!` in `deserialize` is `Except.error`.
-/

set_option maxRecDepth 4000

namespace DotTxt

/-- Model of `BitmapChar` (canvas.rs line 5): a 3x5 pixel bitmap stored in a
`u16`, pixels ordered left-to-right, top-to-bottom starting at the LSB. -/
structure BitmapChar where
  val : ℕ
deriving DecidableEq

/-- Rust `#[derive(Default)]`: the all-off bitmap `BitmapChar(0)`. -/
instance : Inhabited BitmapChar := ⟨⟨0⟩⟩

/-- Model of `BitmapChar::from_bits` (canvas.rs lines 12-19): shift left by
one, then reverse all 16 bits by swapping byte halves, nibbles, bit pairs and
single bits.  Each `u16` shift-left wraps, hence the `% 65536`. -/
def BitmapChar.from_bits (bits : ℕ) : BitmapChar :=
  let b0 := (bits <<< 1) % 65536
  let b1 := (b0 >>> 8) ||| ((b0 <<< 8) % 65536)
  let b2 := ((b1 >>> 4) &&& 0x0F0F) ||| (((b1 <<< 4) % 65536) &&& 0xF0F0)
  let b3 := ((b2 >>> 2) &&& 0x3333) ||| (((b2 <<< 2) % 65536) &&& 0xCCCC)
  let b4 := ((b3 >>> 1) &&& 0x5555) ||| (((b3 <<< 1) % 65536) &&& 0xAAAA)
  ⟨b4⟩

/-- Model of `BitmapChar::peek` (canvas.rs lines 23-25): bounds-checked pixel
read; out-of-range coordinates yield `false`. -/
def BitmapChar.peek (c : BitmapChar) (x y : Int) : Bool :=
  0 ≤ x && 0 ≤ y && x < 3 && y < 5 && (c.val &&& (1 <<< (x + y * 3).toNat) != 0)

/-- Model of `BitmapChar::poke` (canvas.rs lines 29-38): bounds-checked pixel
write; out-of-range coordinates are ignored.  Rust `!mask` on `u16` is
`65535 ^^^ mask`. -/
def BitmapChar.poke (c : BitmapChar) (x y : Int) (value : Bool) : BitmapChar :=
  if 0 ≤ x ∧ 0 ≤ y ∧ x < 3 ∧ y < 5 then
    let mask := 1 <<< (x + y * 3).toNat
    if value then ⟨c.val ||| mask⟩ else ⟨c.val &&& (65535 ^^^ mask)⟩
  else c

theorem and_one_shiftLeft_ne_zero (n k : ℕ) :
    (n &&& (1 <<< k) != 0) = n.testBit k := by
  rw [Nat.one_shiftLeft, Nat.and_two_pow]
  cases h : n.testBit k <;> simp [h, pos_iff_ne_zero.symm, Nat.pos_pow_of_pos]

theorem peek_eq_testBit (c : BitmapChar) (x y : Int)
    (hx0 : 0 ≤ x) (hx : x < 3) (hy0 : 0 ≤ y) (hy : y < 5) :
    c.peek x y = c.val.testBit (x + y * 3).toNat := by
  simp only [BitmapChar.peek, and_one_shiftLeft_ne_zero]
  simp [hx0, hx, hy0, hy, decide_eq_true_eq]

theorem testBit_mod_65536 (x i : ℕ) :
    (x % 65536).testBit i = (decide (i < 16) && x.testBit i) := by
  have h : (65536 : ℕ) = 2 ^ 16 := by norm_num
  rw [h, Nat.testBit_mod_two_pow]

/-- Bit-level characterization of `from_bits`: bit `i` of the result is bit
`14 - i` of the input for `i ≤ 14`, and bit 15 is always clear. -/
theorem from_bits_testBit (b : ℕ) (i : ℕ) (hi : i < 16) :
    (BitmapChar.from_bits b).val.testBit i =
      if i ≤ 14 then b.testBit (14 - i) else false := by
  interval_cases i <;>
  · simp only [BitmapChar.from_bits, testBit_mod_65536, Nat.testBit_lor, Nat.testBit_land,
      Nat.testBit_shiftLeft, Nat.testBit_shiftRight]
    simp only [Nat.testBit_to_div_mod]
    norm_num

theorem peek_out_of_range (c : BitmapChar) (x y : Int)
    (h : ¬(0 ≤ x ∧ x < 3 ∧ 0 ≤ y ∧ y < 5)) : c.peek x y = false := by
  simp only [BitmapChar.peek, Bool.and_eq_false_imp]
  intro h1
  simp only [Bool.and_eq_true, decide_eq_true_eq] at h1
  exact absurd ⟨h1.1.1.1, h1.1.2, h1.1.1.2, h1.2⟩ h

theorem poke_out_of_range (c : BitmapChar) (x y : Int) (v : Bool)
    (h : ¬(0 ≤ x ∧ x < 3 ∧ 0 ≤ y ∧ y < 5)) : c.poke x y v = c := by
  unfold BitmapChar.poke
  rw [if_neg (by tauto)]

theorem from_bits_val_lt_65536 (b : ℕ) : (BitmapChar.from_bits b).val < 65536 := by
  have h : (65536 : ℕ) = 2 ^ 16 := by norm_num
  show (_ ||| _) < 65536
  rw [h]
  exact Nat.bitwise_lt
    (lt_of_le_of_lt Nat.and_le_right (by norm_num))
    (lt_of_le_of_lt Nat.and_le_right (by norm_num))

theorem from_bits_val_lt_32768 (b : ℕ) : (BitmapChar.from_bits b).val < 32768 := by
  have h16 := from_bits_val_lt_65536 b
  have h15 : (BitmapChar.from_bits b).val.testBit 15 = false := by
    rw [from_bits_testBit b 15 (by norm_num)]
    norm_num
  rw [Nat.testBit_to_div_mod] at h15
  simp only [decide_eq_false_iff_not] at h15
  norm_num at h15
  omega

theorem poke_val_lt_32768 (c : BitmapChar) (x y : Int) (v : Bool)
    (h : c.val < 32768) : (c.poke x y v).val < 32768 := by
  unfold BitmapChar.poke
  split
  · next hr =>
    have hk : (x + y * 3).toNat ≤ 14 := by omega
    have hp : (32768 : ℕ) = 2 ^ 15 := by norm_num
    cases v
    · simp only [Bool.false_eq_true, if_false]
      exact lt_of_le_of_lt Nat.and_le_left h
    · simp only [if_true]
      rw [hp]
      refine Nat.bitwise_lt (by rw [← hp]; exact h) ?_
      rw [Nat.one_shiftLeft]
      exact lt_of_le_of_lt (Nat.pow_le_pow_right (by norm_num) hk) (by norm_num)
  · exact h

/-- C5: for every 15-bit value `b` and every in-range coordinate, the cell
produced by `from_bits b` has pixel `(x, y)` set iff bit `14 - (x + 3*y)` of
`b` is set, i.e. the literal is read row-major, MSB-first, top row first. -/
theorem C5_from_bits_layout (b : ℕ) (x y : Int) (hb : b < 32768)
    (hx0 : 0 ≤ x) (hx : x < 3) (hy0 : 0 ≤ y) (hy : y < 5) :
    (BitmapChar.from_bits b).peek x y = b.testBit ((14 - (x + 3 * y)).toNat) := by
  rw [peek_eq_testBit _ _ _ hx0 hx hy0 hy, from_bits_testBit b _ (by omega),
    if_pos (by omega)]
  congr 1
  omega

theorem C5_witness :
    (BitmapChar.from_bits 9362).peek 1 0 = Nat.testBit 9362 (((14 : ℤ) - (1 + 3 * 0)).toNat) :=
  C5_from_bits_layout 9362 1 0 (by norm_num) (by norm_num) (by norm_num) (by norm_num)
    (by norm_num)

/-- C8: for every cell and every out-of-range coordinate, `peek` returns
`false` regardless of prior writes, and `poke` is a no-op that leaves the cell
unchanged (and never signals an error). -/
theorem C8_out_of_range_peek_poke (c : BitmapChar) (x y : Int) (v : Bool)
    (h : ¬(0 ≤ x ∧ x < 3 ∧ 0 ≤ y ∧ y < 5)) :
    c.peek x y = false ∧ c.poke x y v = c :=
  ⟨peek_out_of_range c x y h, poke_out_of_range c x y v h⟩

theorem C8_witness :
    (BitmapChar.from_bits 9362).peek 3 0 = false ∧
      (BitmapChar.from_bits 9362).poke 3 0 true = BitmapChar.from_bits 9362 :=
  C8_out_of_range_peek_poke (BitmapChar.from_bits 9362) 3 0 true (by omega)

/-- Neighborhood offsets scanned by `similarity_asym` (canvas.rs lines 47-48),
in loop order (`sx` outer, `sy` inner, each `-1..=1`). -/
def offsets : List (Int × Int) :=
  [(-1, -1), (-1, 0), (-1, 1), (0, -1), (0, 0), (0, 1), (1, -1), (1, 0), (1, 1)]

/-- Per-pixel inner loop of `similarity_asym` (canvas.rs lines 46-53): start
at the penalty 2.0 and accumulate the minimum Euclidean distance over the
neighborhood offsets at which `other` has a set pixel. -/
noncomputable def pixelMin (other : BitmapChar) (x y : Int) : ℝ :=
  offsets.foldl
    (fun m s =>
      if other.peek (x + s.1) (y + s.2) then
        min m (Real.sqrt ((s.1 * s.1 + s.2 * s.2 : ℤ) : ℝ))
      else m)
    2

/-- Pixel coordinates scanned by `similarity_asym` (canvas.rs lines 43-44), in
loop order (`x` outer `0..=2`, `y` inner `0..=4`). -/
def pixelCoords : List (Int × Int) :=
  [(0, 0), (0, 1), (0, 2), (0, 3), (0, 4),
   (1, 0), (1, 1), (1, 2), (1, 3), (1, 4),
   (2, 0), (2, 1), (2, 2), (2, 3), (2, 4)]

/-- Model of `BitmapChar::similarity_asym` (canvas.rs lines 41-59): sum, over
the set pixels of `a`, of the per-pixel minimum distance to `other`. -/
noncomputable def similarity_asym (a other : BitmapChar) : ℝ :=
  pixelCoords.foldl
    (fun sim p => if a.peek p.1 p.2 then sim + pixelMin other p.1 p.2 else sim) 0

/-- Model of `BitmapChar::similarity` (canvas.rs lines 66-68). -/
noncomputable def similarity (a other : BitmapChar) : ℝ :=
  similarity_asym a other + similarity_asym other a

/-- UTF-8 byte length of a string modelled as a char list (Rust `str::len`). -/
def utf8Len (s : List Char) : ℕ := (s.map Char.utf8Size).sum

/-- Model of `BitmapFont` (canvas.rs lines 72-74): the 32768-entry lookup
table, as the list of its entries in index order. -/
structure BitmapFont where
  data : List Char

/-- Selection step of the inner loop of `BitmapFont::generate` (canvas.rs
lines 85-93): keep the charset entry with the smallest similarity score seen
so far.  The initial `best_sim` is `f64::INFINITY`, modelled as `none`, which
any finite score beats. -/
noncomputable def bestStep (target : BitmapChar) (best : Option ℝ × Char)
    (p : Char × BitmapChar) : Option ℝ × Char :=
  let sim := similarity target p.2
  match best.1 with
  | none => (some sim, p.1)
  | some bs => if sim < bs then (some sim, p.1) else best

/-- Inner loop of `BitmapFont::generate`: best character for one pattern,
starting from `best_char = '?'`. -/
noncomputable def bestChar (charset : List (Char × BitmapChar)) (target : BitmapChar) : Char :=
  (charset.foldl (bestStep target) ((none : Option ℝ), '?')).2

/-- Model of `BitmapFont::generate` (canvas.rs lines 79-100).  The progress
callback is observational only and is dropped. -/
noncomputable def generate (charset : List (Char × BitmapChar)) : BitmapFont :=
  ⟨(List.range 32768).map (fun index => bestChar charset ⟨index⟩)⟩

/-- Model of `BitmapFont::serialize` (canvas.rs lines 115-117): concatenate
the table entries in index order. -/
def serialize (f : BitmapFont) : List Char := f.data

/-- Model of `BitmapFont::deserialize` (canvas.rs lines 103-112).  The
`assert!(data.len() == 32768)` checks the UTF-8 byte length of the input and
panics on mismatch, modelled as `Except.error`; on success the input's
characters are assigned positionally into a table initialized with NUL. -/
def deserialize (s : List Char) : Except String BitmapFont :=
  if utf8Len s = 32768 then
    Except.ok ⟨s ++ List.replicate (32768 - s.length) '\x00'⟩
  else
    Except.error "assertion failed: data.len() == 32768"

/-- Model of `BitmapFont::translate` (canvas.rs lines 120-122), with the
array indexing made explicit: `none` models an out-of-bounds panic. -/
def translate? (f : BitmapFont) (c : BitmapChar) : Option Char := f.data[c.val]?

theorem utf8Len_cons (c : Char) (s : List Char) :
    utf8Len (c :: s) = c.utf8Size + utf8Len s := by
  simp [utf8Len]

theorem utf8Len_replicate (n : ℕ) (c : Char) :
    utf8Len (List.replicate n c) = n * c.utf8Size := by
  rw [utf8Len, List.map_replicate, List.sum_replicate, smul_eq_mul]

theorem length_le_utf8Len (s : List Char) : s.length ≤ utf8Len s := by
  induction s with
  | nil => simp [utf8Len]
  | cons c s ih =>
    have hc : 1 ≤ c.utf8Size := c.utf8Size_pos
    simp only [utf8Len, List.map_cons, List.sum_cons, List.length_cons] at ih ⊢
    omega

theorem utf8Len_eq_length (s : List Char) (h : ∀ c ∈ s, c.utf8Size = 1) :
    utf8Len s = s.length := by
  induction s with
  | nil => simp [utf8Len]
  | cons c s ih =>
    have hc := h c (List.mem_cons_self c s)
    simp only [utf8Len, List.map_cons, List.sum_cons, List.length_cons] at ih ⊢
    rw [hc, ih (fun d hd => h d (List.mem_cons_of_mem c hd))]
    omega

theorem bestChar_fold_mem (t : BitmapChar) (l : List (Char × BitmapChar)) :
    ∀ init : Option ℝ × Char,
      (l.foldl (bestStep t) init).2 = init.2 ∨
        (l.foldl (bestStep t) init).2 ∈ l.map Prod.fst := by
  induction l with
  | nil => intro init; left; rfl
  | cons a l ih =>
    intro init
    rcases ih (bestStep t init a) with h | h
    · rw [List.foldl_cons, h]
      unfold bestStep
      rcases init with ⟨b, ch⟩
      rcases b with _ | bs
      · right; simp
      · by_cases hlt : similarity t a.2 < bs
        · right; simp [hlt]
        · left; simp [hlt]
    · right
      rw [List.foldl_cons]
      exact List.mem_cons_of_mem _ h

theorem bestChar_mem (charset : List (Char × BitmapChar)) (t : BitmapChar) :
    bestChar charset t = '?' ∨ bestChar charset t ∈ charset.map Prod.fst :=
  bestChar_fold_mem t charset ((none : Option ℝ), '?')

theorem generate_length (charset : List (Char × BitmapChar)) :
    (generate charset).data.length = 32768 := by
  simp [generate]

theorem bestChar_singleton (p : Char × BitmapChar) (t : BitmapChar) :
    bestChar [p] t = p.1 := rfl

theorem generate_singleton (p : Char × BitmapChar) :
    generate [p] = ⟨List.replicate 32768 p.1⟩ := by
  unfold generate
  rw [show (fun index => bestChar [p] (⟨index⟩ : BitmapChar)) = fun _ => p.1 from
      funext (fun i => bestChar_singleton p ⟨i⟩),
    List.map_const', List.length_range]

/-- C1 counterexample: with the one-entry reference set `('█', all-off)`, the
generated table serializes to 32768 copies of the three-byte character `'█'`,
so deserialization rejects it (byte length 98304, not 32768): the round-trip
does not hold for every reference glyph set. -/
theorem C1_counterexample :
    deserialize (serialize (generate [('█', (⟨0⟩ : BitmapChar))])) =
      Except.error "assertion failed: data.len() == 32768" := by
  rw [generate_singleton]
  have h : utf8Len (serialize ⟨List.replicate 32768 '█'⟩) = 98304 := by
    rw [serialize, utf8Len_replicate, show ('█' : Char).utf8Size = 3 from rfl]
  unfold deserialize
  rw [h, if_neg (by norm_num)]

/-- C1, amended: when every character of the reference set is a single-byte
(ASCII) character, deserializing the serialization of the generated table
yields a table whose lookup agrees with the original at every 15-bit
pattern. -/
theorem C1_roundtrip_ascii (charset : List (Char × BitmapChar))
    (h : ∀ p ∈ charset, p.1.utf8Size = 1) :
    ∃ f, deserialize (serialize (generate charset)) = Except.ok f ∧
      ∀ p : ℕ, p < 32768 → translate? f ⟨p⟩ = translate? (generate charset) ⟨p⟩ := by
  refine ⟨generate charset, ?_, fun p _ => rfl⟩
  have hall : ∀ c ∈ (generate charset).data, c.utf8Size = 1 := by
    intro c hc
    simp only [generate] at hc
    rw [List.mem_map] at hc
    obtain ⟨i, _, hi⟩ := hc
    rcases bestChar_mem charset ⟨i⟩ with hq | hq
    · rw [← hi, hq]; rfl
    · rw [← hi]
      simp only [List.mem_map] at hq
      obtain ⟨q, hq1, hq2⟩ := hq
      rw [← hq2]
      exact h q hq1
  have hlen : utf8Len (serialize (generate charset)) = 32768 := by
    rw [serialize, utf8Len_eq_length _ hall, generate_length]
  have h0 : (32768 : ℕ) - (serialize (generate charset)).length = 0 := by
    rw [serialize, generate_length]
  have heta : (⟨serialize (generate charset)⟩ : BitmapFont) = generate charset := by
    cases hg : generate charset with
    | mk d => rfl
  unfold deserialize
  rw [hlen, if_pos rfl, h0, List.replicate_zero, List.append_nil]
  exact congrArg Except.ok heta

theorem C1_witness :
    ∃ f, deserialize (serialize (generate [])) = Except.ok f ∧
      ∀ p : ℕ, p < 32768 → translate? f ⟨p⟩ = translate? (generate []) ⟨p⟩ :=
  C1_roundtrip_ascii [] (by simp)

/-- C2 counterexample: an input of exactly 32768 characters whose first
character is the two-byte `'é'` is rejected by `deserialize`, because the
code checks the UTF-8 byte length (32769 here), not the character count. -/
theorem C2_counterexample :
    ('é' :: List.replicate 32767 'a').length = 32768 ∧
      deserialize ('é' :: List.replicate 32767 'a') =
        Except.error "assertion failed: data.len() == 32768" := by
  constructor
  · rw [List.length_cons, List.length_replicate]
  · have h : utf8Len ('é' :: List.replicate 32767 'a') = 32769 := by
      rw [utf8Len_cons, utf8Len_replicate, show ('é' : Char).utf8Size = 2 from rfl,
        show ('a' : Char).utf8Size = 1 from rfl]
    unfold deserialize
    rw [h, if_neg (by norm_num)]

/-- C2, amended: deserialization fails (with the length-mismatch assertion)
iff the input's UTF-8 byte length is not exactly 32768 — for pure-ASCII input
this coincides with the character count; when it is exactly 32768 bytes, it
succeeds and assigns each character positionally (NUL-filling any table slots
past the last character). -/
theorem C2_deserialize_length (s : List Char) :
    ((∃ e, deserialize s = Except.error e) ↔ utf8Len s ≠ 32768) ∧
      (utf8Len s = 32768 →
        ∃ f, deserialize s = Except.ok f ∧ f.data.length = 32768 ∧
          ∀ i : ℕ, i < s.length → f.data[i]? = s[i]?) := by
  constructor
  · constructor
    · rintro ⟨e, he⟩ hlen
      rw [deserialize, if_pos hlen] at he
      exact Except.noConfusion he
    · intro hlen
      exact ⟨_, by rw [deserialize, if_neg hlen]⟩
  · intro hlen
    have hsl : s.length ≤ 32768 := hlen ▸ length_le_utf8Len s
    refine ⟨_, by rw [deserialize, if_pos hlen], ?_, ?_⟩
    · simp only [List.length_append, List.length_replicate]
      omega
    · intro i hi
      rw [List.getElem?_append]
      rw [if_pos hi]

theorem C2_witness :
    ((∃ e, deserialize (List.replicate 32768 'a') = Except.error e) ↔
        utf8Len (List.replicate 32768 'a') ≠ 32768) ∧
      (utf8Len (List.replicate 32768 'a') = 32768 →
        ∃ f, deserialize (List.replicate 32768 'a') = Except.ok f ∧
          f.data.length = 32768 ∧
          ∀ i : ℕ, i < (List.replicate 32768 'a').length →
            f.data[i]? = (List.replicate 32768 'a')[i]?) :=
  C2_deserialize_length (List.replicate 32768 'a')

/-- Model of the `Character` cell content enum (canvas.rs lines 131-137):
either a 3x5 bitmap accumulator or a literal text character. -/
inductive Character where
  | Bitmap (l : BitmapChar)
  | Text (c : Char)
deriving DecidableEq

/-- Rust `Default` for `Character` (canvas.rs lines 139-143): an empty
bitmap. -/
instance : Inhabited Character := ⟨Character.Bitmap default⟩

/-- Truncation toward zero: the behavior of Rust's `as i64` cast on the exact
rational modelling an `f64` value (saturation at the `i64` bounds is not
modelled; no coordinate in scope approaches them). -/
def truncQ (q : ℚ) : ℤ := if q < 0 then -(⌊-q⌋) else ⌊q⌋

/-- Model of `Canvas` (canvas.rs lines 163-178). -/
structure Canvas where
  data : List Character
  width : ℕ
  scale : ℚ × ℚ
  footnotes : List (List Char)

/-- Model of `Canvas::new` (canvas.rs lines 182-189): the column count is
`((width / 3.0) as usize) + 1`; the `as usize` cast truncates and saturates
negative values to zero, hence `Int.toNat`. -/
def Canvas.new (width : ℚ) (scale : ℚ × ℚ) : Canvas :=
  { data := [], width := (truncQ (width / 3)).toNat + 1, scale := scale, footnotes := [] }

/-- Model of `Canvas::data_index` (canvas.rs lines 192-198). -/
def Canvas.data_index (cv : Canvas) (index : ℕ × ℕ) : Option ℕ :=
  if index.1 ≥ cv.width then none else some (index.1 + cv.width * index.2)

/-- Model of `Canvas::get_character` (canvas.rs lines 201-207): missing cells
read as the default empty bitmap. -/
def Canvas.get_character (cv : Canvas) (index : ℕ × ℕ) : Character :=
  match cv.data_index index with
  | none => default
  | some i => (cv.data[i]?).getD default

/-- Growth step of `Canvas::get_character_mut` (canvas.rs lines 211-220):
`Vec::resize(index + 1, default)`, which is only reached when it grows the
buffer, modelled as padding with default cells (a no-op when `n ≤ length`). -/
def padTo (d : List Character) (n : ℕ) : List Character :=
  d ++ List.replicate (n - d.length) default

/-- Combined grow-and-overwrite step shared by the cell mutators: the
`Vec::resize` performed by `get_character_mut` followed by an assignment to
slot `i`. -/
def writeCell (cv : Canvas) (i : ℕ) (ch : Character) : Canvas :=
  { cv with data := (padTo cv.data (i + 1)).set i ch }

/-- Model of `Canvas::set_character` (canvas.rs lines 250-253):
`get_character_mut` grows the buffer, then the slot is overwritten with text;
writes beyond the column width are dropped (`data_index` is `none`). -/
def Canvas.set_character (cv : Canvas) (index : ℕ × ℕ) (character : Char) : Canvas :=
  match cv.data_index index with
  | none => cv
  | some i => writeCell cv i (Character.Text character)

/-- Model of `Canvas::translate_pix_to_char` (canvas.rs lines 230-239).
Negative pixel coordinates are rejected; past the guard both coordinates are
nonnegative, where Rust's truncating `/` and `%` agree with Lean's Euclidean
`Int` division. -/
def translate_pix_to_char (coord : ℤ × ℤ) : Option ((ℕ × ℕ) × ℤ × ℤ) :=
  if coord.1 < 0 ∨ coord.2 < 0 then none
  else some (((coord.1 / 3).toNat, (coord.2 / 5).toNat), coord.1 % 3, coord.2 % 5)

/-- Model of `Canvas::translate_in_to_pix` (canvas.rs lines 242-247): scale
each axis independently, then cast `as i64`. -/
def Canvas.translate_in_to_pix (cv : Canvas) (coord : ℚ × ℚ) : ℤ × ℤ :=
  (truncQ (coord.1 * cv.scale.1), truncQ (coord.2 * cv.scale.2))

/-- Model of `Canvas::translate_in_to_char` (canvas.rs lines 224-226). -/
def Canvas.translate_in_to_char (cv : Canvas) (coord : ℚ × ℚ) :
    Option ((ℕ × ℕ) × ℤ × ℤ) :=
  translate_pix_to_char (cv.translate_in_to_pix coord)

/-- Model of `Canvas::get_pixel` (canvas.rs lines 258-265): `false` for text
cells and unaddressable coordinates. -/
def Canvas.get_pixel (cv : Canvas) (coord : ℤ × ℤ) : Bool :=
  match translate_pix_to_char coord with
  | some (index, x, y) =>
    match cv.get_character index with
    | Character.Bitmap l => l.peek x y
    | Character.Text _ => false
  | none => false

/-- Model of `Canvas::set_pixel` (canvas.rs lines 268-274).  Rust's
`get_character_mut` grows the buffer before the `Bitmap` pattern is tested;
when the target cell holds text the growth was a no-op (text is only ever
stored inside the buffer), so returning the canvas unchanged is faithful. -/
def Canvas.set_pixel (cv : Canvas) (coord : ℤ × ℤ) (value : Bool) : Canvas :=
  match translate_pix_to_char coord with
  | none => cv
  | some (index, x, y) =>
    match cv.data_index index with
    | none => cv
    | some i =>
      match (padTo cv.data (i + 1))[i]? with
      | some (Character.Bitmap l) => writeCell cv i (Character.Bitmap (l.poke x y value))
      | _ => cv

/-- Rust `char::is_control`: the Unicode `Cc` category, i.e. U+0000..U+001F
and U+007F..U+009F. -/
def isControl (c : Char) : Bool :=
  decide (c.toNat < 0x20) || (decide (0x7F ≤ c.toNat) && decide (c.toNat ≤ 0x9F))

/-- Model of `Canvas::draw_string` (canvas.rs lines 277-290): walk the
characters keeping a cursor; newline returns to the starting column and
advances one row, other control characters are skipped. -/
def Canvas.draw_string (cv : Canvas) (coord : ℚ × ℚ) (text : List Char) : Canvas :=
  match cv.translate_in_to_char coord with
  | none => cv
  | some (top_left, _, _) =>
    (text.foldl
      (fun st ch =>
        if ch = '\n' then (st.1, (top_left.1, st.2.2 + 1))
        else if isControl ch then st
        else (st.1.set_character st.2 ch, (st.2.1 + 1, st.2.2)))
      (cv, top_left)).1

/-- Iteration of a Rust inclusive range `a..=b` over `i64` (empty when
`b < a`). -/
def intRange (a b : ℤ) : List ℤ := (List.range (b + 1 - a).toNat).map (fun k => a + k)

/-- Model of `Canvas::draw_rect` (canvas.rs lines 294-305): horizontal edges
first, then vertical edges, each span inclusive. -/
def Canvas.draw_rect (cv : Canvas) (a b : ℚ × ℚ) : Canvas :=
  let pa := cv.translate_in_to_pix a
  let pb := cv.translate_in_to_pix b
  let cv1 := (intRange pa.1 pb.1).foldl
    (fun c x => (c.set_pixel (x, pa.2) true).set_pixel (x, pb.2) true) cv
  (intRange pa.2 pb.2).foldl
    (fun c y => (c.set_pixel (pa.1, y) true).set_pixel (pb.1, y) true) cv1

/-- Octant classification of the `line_drawing` crate's `Bresenham` used by
`Canvas::draw_line` (canvas.rs line 311): rotate an arbitrary direction into
octant 0, where `0 ≤ dy ≤ dx`. -/
def octantFromPoints (start finish : ℤ × ℤ) : ℕ :=
  let dx := finish.1 - start.1
  let dy := finish.2 - start.2
  let s1 := if dy < 0 then (-dx, -dy, 4) else (dx, dy, 0)
  let s2 := if s1.1 < 0 then (s1.2.1, -s1.1, s1.2.2 + 2) else s1
  if s2.1 < s2.2.1 then s2.2.2 + 1 else s2.2.2

/-- Coordinate map into octant 0 (from the `line_drawing` crate). -/
def toOctant0 (octant : ℕ) (p : ℤ × ℤ) : ℤ × ℤ :=
  match octant with
  | 0 => (p.1, p.2)
  | 1 => (p.2, p.1)
  | 2 => (p.2, -p.1)
  | 3 => (-p.1, p.2)
  | 4 => (-p.1, -p.2)
  | 5 => (-p.2, -p.1)
  | 6 => (-p.2, p.1)
  | _ => (p.1, -p.2)

/-- Coordinate map back out of octant 0 (from the `line_drawing` crate). -/
def fromOctant0 (octant : ℕ) (p : ℤ × ℤ) : ℤ × ℤ :=
  match octant with
  | 0 => (p.1, p.2)
  | 1 => (p.2, p.1)
  | 2 => (-p.2, p.1)
  | 3 => (-p.1, p.2)
  | 4 => (-p.1, -p.2)
  | 5 => (-p.2, -p.1)
  | 6 => (p.2, -p.1)
  | _ => (p.1, -p.2)

/-- Iteration loop of the crate's `Bresenham` iterator with an explicit yield
count: in octant-0 space the iterator yields once per `x` from start to end
inclusive (`dx + 1` yields), bumping `y` and adjusting the error term
whenever the error is nonnegative. -/
def bresenhamLoop (octant : ℕ) (dx dy : ℤ) :
    ℕ → (ℤ × ℤ) → ℤ → List (ℤ × ℤ)
  | 0, _, _ => []
  | n + 1, p, err =>
    fromOctant0 octant p ::
      (if err ≥ 0 then
        bresenhamLoop octant dx dy n (p.1 + 1, p.2 + 1) (err - dx + dy)
      else
        bresenhamLoop octant dx dy n (p.1 + 1, p.2) (err + dy))

/-- Model of `line_drawing::Bresenham::new` followed by complete iteration:
the pixel path visited by `Canvas::draw_line` (canvas.rs line 311). -/
def bresenham (start finish : ℤ × ℤ) : List (ℤ × ℤ) :=
  let octant := octantFromPoints start finish
  let s := toOctant0 octant start
  let e := toOctant0 octant finish
  let dx := e.1 - s.1
  let dy := e.2 - s.2
  bresenhamLoop octant dx dy (dx + 1).toNat s (dy - dx)

/-- Model of `Canvas::draw_line` (canvas.rs lines 308-314). -/
def Canvas.draw_line (cv : Canvas) (a b : ℚ × ℚ) : Canvas :=
  let pa := cv.translate_in_to_pix a
  let pb := cv.translate_in_to_pix b
  (bresenham pa pb).foldl (fun c p => c.set_pixel p true) cv

/-- Drawing operations on a canvas named by the invariant claims: the public
primitives plus the internal single-pixel write. -/
inductive CanvasOp where
  | line (a b : ℚ × ℚ)
  | rect (a b : ℚ × ℚ)
  | str (coord : ℚ × ℚ) (text : List Char)
  | pixel (coord : ℤ × ℤ) (value : Bool)

def applyOp (cv : Canvas) : CanvasOp → Canvas
  | CanvasOp.line a b => cv.draw_line a b
  | CanvasOp.rect a b => cv.draw_rect a b
  | CanvasOp.str coord text => cv.draw_string coord text
  | CanvasOp.pixel coord value => cv.set_pixel coord value

def applyOps (ops : List CanvasOp) (cv : Canvas) : Canvas :=
  ops.foldl applyOp cv

theorem Canvas_new_9 : Canvas.new 9 (1, 1) = ⟨[], 4, (1, 1), []⟩ := by
  unfold Canvas.new
  norm_num [truncQ]
  decide

theorem tip_unit_zero (d : List Character) (w : ℕ) (f : List (List Char)) :
    Canvas.translate_in_to_pix ⟨d, w, (1, 1), f⟩ (0, 0) = (0, 0) := by
  unfold Canvas.translate_in_to_pix
  norm_num [truncQ]

/-- C3 counterexample: on the 4-column canvas `Canvas::new(9.0, (1,1))`, the
single degenerate line `draw_line((0,0),(0,0))` grows the cell sequence to
length 1, which is not a multiple of the column count 4. -/
theorem C3_counterexample :
    ((Canvas.new 9 (1, 1)).draw_line (0, 0) (0, 0)).data.length = 1 ∧
      ((Canvas.new 9 (1, 1)).draw_line (0, 0) (0, 0)).width = 4 ∧
      ¬ ((4 : ℕ) ∣ 1) := by
  rw [Canvas_new_9]
  unfold Canvas.draw_line
  rw [tip_unit_zero]
  refine ⟨by decide, by decide, by decide⟩

/-- C3, amended: the stored cell sequence length need not be a multiple of
`width`; instead rows are implicitly complete: after every sequence of canvas
operations, any cell whose backing index lies at or beyond the stored
sequence length reads as the default empty bitmap cell. -/
theorem C3_rows_implicitly_empty (start : Canvas) (ops : List CanvasOp)
    (index : ℕ × ℕ) (i : ℕ)
    (hidx : (applyOps ops start).data_index index = some i)
    (hlen : (applyOps ops start).data.length ≤ i) :
    (applyOps ops start).get_character index = default := by
  unfold Canvas.get_character
  rw [hidx]
  show ((applyOps ops start).data[i]?).getD default = default
  rw [List.getElem?_eq_none hlen]
  rfl

theorem C3_witness :
    (applyOps [] (Canvas.new 9 (1, 1))).get_character (0, 1) = default :=
  C3_rows_implicitly_empty (Canvas.new 9 (1, 1)) [] (0, 1) 4
    (by rw [show applyOps [] (Canvas.new 9 (1, 1)) = Canvas.new 9 (1, 1) from rfl,
          Canvas_new_9]; decide)
    (by rw [show applyOps [] (Canvas.new 9 (1, 1)) = Canvas.new 9 (1, 1) from rfl,
          Canvas_new_9]; decide)

theorem padTo_length (d : List Character) (n : ℕ) :
    (padTo d n).length = max d.length n := by
  unfold padTo
  rw [List.length_append, List.length_replicate]
  omega

theorem padTo_getElem?_lt (d : List Character) (n k : ℕ) (h : k < d.length) :
    (padTo d n)[k]? = d[k]? := by
  unfold padTo
  rw [List.getElem?_append, if_pos h]

theorem set_character_width (cv : Canvas) (index : ℕ × ℕ) (ch : Char) :
    (cv.set_character index ch).width = cv.width := by
  unfold Canvas.set_character
  repeat' split
  all_goals rfl

theorem set_pixel_width (cv : Canvas) (p : ℤ × ℤ) (v : Bool) :
    (cv.set_pixel p v).width = cv.width := by
  unfold Canvas.set_pixel
  repeat' split
  all_goals rfl

/-- Generic preservation of an invariant along a left fold. -/
theorem foldl_preserves {α β : Type} (Inv : α → Prop) (f : α → β → α)
    (hf : ∀ a b, Inv a → Inv (f a b)) :
    ∀ (l : List β) (a : α), Inv a → Inv (l.foldl f a) := by
  intro l
  induction l with
  | nil => intro a ha; exact ha
  | cons b t ih => intro a ha; exact ih _ (hf a b ha)

/-- A cell that stores text keeps storing text (possibly different text)
under `set_character`. -/
theorem set_character_keeps_text (cv : Canvas) (index : ℕ × ℕ) (ch : Char)
    (k : ℕ) (c : Char) (h : cv.data[k]? = some (Character.Text c)) :
    ∃ c', (cv.set_character index ch).data[k]? = some (Character.Text c') := by
  have hk : k < cv.data.length := by
    by_contra hk
    rw [List.getElem?_eq_none (by omega)] at h
    exact Option.noConfusion h
  unfold Canvas.set_character
  cases hd : cv.data_index index with
  | none => exact ⟨c, h⟩
  | some i =>
    by_cases hik : i = k
    · subst hik
      refine ⟨ch, ?_⟩
      show ((padTo cv.data (i + 1)).set i (Character.Text ch))[i]? = _
      rw [List.getElem?_set_self (by rw [padTo_length]; omega)]
    · refine ⟨c, ?_⟩
      show ((padTo cv.data (i + 1)).set i (Character.Text ch))[k]? = _
      rw [List.getElem?_set_ne hik, padTo_getElem?_lt _ _ _ hk]
      exact h

/-- A cell that stores text is left completely unchanged by `set_pixel`. -/
theorem set_pixel_keeps_text (cv : Canvas) (p : ℤ × ℤ) (v : Bool)
    (k : ℕ) (c : Char) (h : cv.data[k]? = some (Character.Text c)) :
    (cv.set_pixel p v).data[k]? = some (Character.Text c) := by
  have hk : k < cv.data.length := by
    by_contra hk
    rw [List.getElem?_eq_none (by omega)] at h
    exact Option.noConfusion h
  unfold Canvas.set_pixel
  split
  · exact h
  split
  · exact h
  next index x y i hd =>
    split
    next l hv =>
      have hik : i ≠ k := by
        intro hik
        subst hik
        rw [padTo_getElem?_lt _ _ _ hk, h] at hv
        exact Character.noConfusion (Option.some.inj hv)
      show ((padTo cv.data (i + 1)).set i _)[k]? = _
      rw [List.getElem?_set_ne hik, padTo_getElem?_lt _ _ _ hk]
      exact h
    next => exact h

/-- Invariant used for C7: the canvas has a fixed width and stores text at
backing index `k`. -/
def TextInv (w k : ℕ) (cv : Canvas) : Prop :=
  cv.width = w ∧ ∃ c', cv.data[k]? = some (Character.Text c')

theorem set_character_textInv (w k : ℕ) (index : ℕ × ℕ) (ch : Char)
    (cv : Canvas) (h : TextInv w k cv) : TextInv w k (cv.set_character index ch) := by
  obtain ⟨hw, c, hc⟩ := h
  obtain ⟨c', hc'⟩ := set_character_keeps_text cv index ch k c hc
  exact ⟨by rw [set_character_width, hw], c', hc'⟩

theorem set_pixel_textInv (w k : ℕ) (p : ℤ × ℤ) (v : Bool)
    (cv : Canvas) (h : TextInv w k cv) : TextInv w k (cv.set_pixel p v) := by
  obtain ⟨hw, c, hc⟩ := h
  exact ⟨by rw [set_pixel_width, hw], c, set_pixel_keeps_text cv p v k c hc⟩

theorem draw_string_textInv (w k : ℕ) (coord : ℚ × ℚ) (text : List Char)
    (cv : Canvas) (h : TextInv w k cv) : TextInv w k (cv.draw_string coord text) := by
  unfold Canvas.draw_string
  cases cv.translate_in_to_char coord with
  | none => exact h
  | some q =>
    obtain ⟨top_left, x, y⟩ := q
    have := foldl_preserves (fun st : Canvas × (ℕ × ℕ) => TextInv w k st.1)
      (fun st ch =>
        if ch = '\n' then (st.1, (top_left.1, st.2.2 + 1))
        else if isControl ch then st
        else (st.1.set_character st.2 ch, (st.2.1 + 1, st.2.2)))
      (fun st ch hst => by
        by_cases h1 : ch = '\n'
        · simpa [h1] using hst
        · by_cases h2 : isControl ch
          · simpa [h1, h2] using hst
          · simp only [h1, h2, if_false, Bool.false_eq_true]
            exact set_character_textInv w k st.2 ch st.1 hst)
      text (cv, top_left) h
    exact this

theorem draw_rect_textInv (w k : ℕ) (a b : ℚ × ℚ)
    (cv : Canvas) (h : TextInv w k cv) : TextInv w k (cv.draw_rect a b) := by
  unfold Canvas.draw_rect
  refine foldl_preserves (TextInv w k) _ (fun c y hc => ?_) _ _
    (foldl_preserves (TextInv w k) _ (fun c x hc => ?_) _ _ h)
  · exact set_pixel_textInv w k _ _ _ (set_pixel_textInv w k _ _ _ hc)
  · exact set_pixel_textInv w k _ _ _ (set_pixel_textInv w k _ _ _ hc)

theorem draw_line_textInv (w k : ℕ) (a b : ℚ × ℚ)
    (cv : Canvas) (h : TextInv w k cv) : TextInv w k (cv.draw_line a b) := by
  unfold Canvas.draw_line
  exact foldl_preserves (TextInv w k) _
    (fun c p hc => set_pixel_textInv w k _ _ _ hc) _ _ h

theorem applyOp_textInv (w k : ℕ) (op : CanvasOp)
    (cv : Canvas) (h : TextInv w k cv) : TextInv w k (applyOp cv op) := by
  cases op with
  | line a b => exact draw_line_textInv w k a b cv h
  | rect a b => exact draw_rect_textInv w k a b cv h
  | str coord text => exact draw_string_textInv w k coord text cv h
  | pixel coord value => exact set_pixel_textInv w k coord value cv h

theorem applyOps_textInv (w k : ℕ) (ops : List CanvasOp)
    (cv : Canvas) (h : TextInv w k cv) : TextInv w k (applyOps ops cv) :=
  foldl_preserves (TextInv w k) applyOp (fun a b hb0 => applyOp_textInv w k b a hb0) ops cv h

theorem get_character_text_iff (cv : Canvas) (index : ℕ × ℕ) (c : Char) :
    cv.get_character index = Character.Text c ↔
      ∃ k, cv.data_index index = some k ∧ cv.data[k]? = some (Character.Text c) := by
  unfold Canvas.get_character
  cases hd : cv.data_index index with
  | none =>
    constructor
    · intro h; exact Character.noConfusion h
    · rintro ⟨k, hk, _⟩; exact Option.noConfusion hk
  | some k =>
    constructor
    · intro h
      have h' : (cv.data[k]?).getD default = Character.Text c := h
      refine ⟨k, rfl, ?_⟩
      cases hv : cv.data[k]? with
      | none => rw [hv] at h'; exact Character.noConfusion h'
      | some cell => rw [hv, Option.getD_some] at h'; rw [h']
    · rintro ⟨k', hk', hv⟩
      show (cv.data[k]?).getD default = Character.Text c
      rw [← Option.some.inj hk'] at hv
      rw [hv, Option.getD_some]

/-- C7: once a cell holds a text character, its tag remains text after every
further sequence of drawing operations (line, rectangle, string or raw pixel
writes), and a raw pixel write leaves a text cell entirely unchanged. -/
theorem C7_text_permanent (cv : Canvas) (index : ℕ × ℕ) (c : Char)
    (h : cv.get_character index = Character.Text c) :
    (∀ ops : List CanvasOp,
        ∃ c', (applyOps ops cv).get_character index = Character.Text c') ∧
      ∀ (coord : ℤ × ℤ) (v : Bool),
        (cv.set_pixel coord v).get_character index = Character.Text c := by
  obtain ⟨k, hk, hv⟩ := (get_character_text_iff cv index c).mp h
  constructor
  · intro ops
    obtain ⟨hw, c', hc'⟩ := applyOps_textInv cv.width k ops cv ⟨rfl, c, hv⟩
    refine ⟨c', (get_character_text_iff _ index c').mpr ⟨k, ?_, hc'⟩⟩
    unfold Canvas.data_index at hk ⊢
    rw [hw]
    exact hk
  · intro coord v
    refine (get_character_text_iff _ index c).mpr ⟨k, ?_, set_pixel_keeps_text cv coord v k c hv⟩
    unfold Canvas.data_index at hk ⊢
    rw [set_pixel_width]
    exact hk

theorem C7_witness :
    (∃ c', (applyOps [CanvasOp.line (0, 0) (2, 4)]
        ((Canvas.new 9 (1, 1)).set_character (0, 0) 'a')).get_character (0, 0) =
          Character.Text c') ∧
      (((Canvas.new 9 (1, 1)).set_character (0, 0) 'a').set_pixel (0, 0)
          false).get_character (0, 0) = Character.Text 'a' := by
  have h : ((Canvas.new 9 (1, 1)).set_character (0, 0) 'a').get_character (0, 0) =
      Character.Text 'a' := by
    rw [Canvas_new_9]
    decide
  have := C7_text_permanent ((Canvas.new 9 (1, 1)).set_character (0, 0) 'a') (0, 0) 'a' h
  exact ⟨this.1 [CanvasOp.line (0, 0) (2, 4)], this.2 (0, 0) false⟩

theorem testBit_one_shiftLeft (k i : ℕ) : (1 <<< k).testBit i = decide (k = i) := by
  rw [Nat.one_shiftLeft, Nat.testBit_two_pow]

/-- Reading back the pixel just poked (in range) yields the poked value. -/
theorem peek_poke_self (c : BitmapChar) (x y : Int) (v : Bool)
    (hx0 : 0 ≤ x) (hx : x < 3) (hy0 : 0 ≤ y) (hy : y < 5) :
    (c.poke x y v).peek x y = v := by
  have hk : (x + y * 3).toNat < 15 := by omega
  unfold BitmapChar.poke
  rw [if_pos ⟨hx0, hy0, hx, hy⟩]
  cases v with
  | true =>
    rw [peek_eq_testBit _ _ _ hx0 hx hy0 hy]
    show ((c.val ||| 1 <<< (x + y * 3).toNat).testBit (x + y * 3).toNat) = true
    rw [Nat.testBit_lor, testBit_one_shiftLeft]
    simp
  | false =>
    rw [peek_eq_testBit _ _ _ hx0 hx hy0 hy]
    show ((c.val &&& (65535 ^^^ 1 <<< (x + y * 3).toNat)).testBit (x + y * 3).toNat) = false
    rw [Nat.testBit_land, Nat.testBit_xor, testBit_one_shiftLeft,
      show (65535 : ℕ) = 2 ^ 16 - 1 by norm_num, Nat.testBit_two_pow_sub_one]
    have h16 : (x + y * 3).toNat < 16 := by omega
    simp [hk, h16]

/-- Poking one pixel does not disturb any other pixel. -/
theorem peek_poke_other (c : BitmapChar) (x y x' y' : Int) (v : Bool)
    (hne : ¬(x' = x ∧ y' = y)) :
    (c.poke x y v).peek x' y' = c.peek x' y' := by
  by_cases hr : 0 ≤ x ∧ 0 ≤ y ∧ x < 3 ∧ y < 5
  swap
  · rw [poke_out_of_range c x y v (by tauto)]
  by_cases hr' : 0 ≤ x' ∧ x' < 3 ∧ 0 ≤ y' ∧ y' < 5
  swap
  · rw [peek_out_of_range _ x' y' hr', peek_out_of_range _ x' y' hr']
  obtain ⟨hx0, hy0, hx, hy⟩ := hr
  obtain ⟨hx0', hx', hy0', hy'⟩ := hr'
  have hkk : ¬((x + y * 3).toNat = (x' + y' * 3).toNat) := by
    rcases not_and_or.mp hne with h | h <;> omega
  unfold BitmapChar.poke
  rw [if_pos ⟨hx0, hy0, hx, hy⟩]
  cases v with
  | true =>
    rw [peek_eq_testBit _ _ _ hx0' hx' hy0' hy', peek_eq_testBit _ _ _ hx0' hx' hy0' hy']
    show ((c.val ||| 1 <<< (x + y * 3).toNat).testBit (x' + y' * 3).toNat) = _
    rw [Nat.testBit_lor, testBit_one_shiftLeft]
    simp [hkk]
  | false =>
    rw [peek_eq_testBit _ _ _ hx0' hx' hy0' hy', peek_eq_testBit _ _ _ hx0' hx' hy0' hy']
    show ((c.val &&& (65535 ^^^ 1 <<< (x + y * 3).toNat)).testBit (x' + y' * 3).toNat) = _
    rw [Nat.testBit_land, Nat.testBit_xor, testBit_one_shiftLeft,
      show (65535 : ℕ) = 2 ^ 16 - 1 by norm_num, Nat.testBit_two_pow_sub_one]
    have : (x' + y' * 3).toNat < 16 := by omega
    simp [hkk, this]

theorem padTo_getElem?_ge (d : List Character) (n i : ℕ)
    (h1 : d.length ≤ i) (h2 : i < n) :
    (padTo d n)[i]? = some default := by
  unfold padTo
  rw [List.getElem?_append, if_neg (by omega), List.getElem?_replicate,
    if_pos (by omega)]

/-- Reading any slot of a grow-and-set buffer, phrased through the defaulting
read used by `get_character`. -/
theorem pad_set_getElem? (d : List Character) (n i j : ℕ) (hi : i < n)
    (ch : Character) :
    ((((padTo d n).set i ch)[j]?).getD default) =
      if j = i then ch else (d[j]?).getD default := by
  by_cases hj : j = i
  · subst hj
    rw [List.getElem?_set_self (by rw [padTo_length]; omega), if_pos rfl,
      Option.getD_some]
  · rw [List.getElem?_set_ne (fun h => hj h.symm), if_neg hj]
    by_cases hlen : j < d.length
    · rw [padTo_getElem?_lt _ _ _ hlen]
    · by_cases hn : j < n
      · rw [padTo_getElem?_ge _ _ _ (by omega) hn,
          List.getElem?_eq_none (by omega), Option.getD_some, Option.getD_none]
      · rw [List.getElem?_eq_none (by rw [padTo_length]; omega),
          List.getElem?_eq_none (le_of_not_lt hlen)]

/-- Normal form of `set_pixel` at an addressable coordinate whose cell reads
as a bitmap. -/
theorem set_pixel_eq_of_bitmap (cv : Canvas) (p : ℤ × ℤ) (v : Bool)
    (hx : 0 ≤ p.1) (hy : 0 ≤ p.2)
    (hw : (p.1 / 3).toNat < cv.width) (l : BitmapChar)
    (hc : cv.get_character ((p.1 / 3).toNat, (p.2 / 5).toNat) = Character.Bitmap l) :
    cv.set_pixel p v =
      writeCell cv ((p.1 / 3).toNat + cv.width * (p.2 / 5).toNat)
        (Character.Bitmap (l.poke (p.1 % 3) (p.2 % 5) v)) := by
  have ht : translate_pix_to_char p =
      some (((p.1 / 3).toNat, (p.2 / 5).toNat), p.1 % 3, p.2 % 5) := by
    unfold translate_pix_to_char
    rw [if_neg (by omega)]
  have hdi : cv.data_index ((p.1 / 3).toNat, (p.2 / 5).toNat) =
      some ((p.1 / 3).toNat + cv.width * (p.2 / 5).toNat) := by
    unfold Canvas.data_index
    rw [if_neg (by omega)]
  set k := (p.1 / 3).toNat + cv.width * (p.2 / 5).toNat with hkdef
  have hpi : (padTo cv.data (k + 1))[k]? = some (Character.Bitmap l) := by
    unfold Canvas.get_character at hc
    rw [hdi] at hc
    have hc' : ((cv.data[k]?).getD default) = Character.Bitmap l := hc
    cases hv : cv.data[k]? with
    | none =>
      rw [hv, Option.getD_none] at hc'
      rw [padTo_getElem?_ge _ _ _ (List.getElem?_eq_none_iff.mp hv) (by omega)]
      rw [← hc']
    | some cell =>
      rw [hv, Option.getD_some] at hc'
      have hlt : k < cv.data.length := by
        by_contra hlt
        rw [List.getElem?_eq_none (le_of_not_lt hlt)] at hv
        exact Option.noConfusion hv
      rw [padTo_getElem?_lt _ _ _ hlt, hv, hc']
  unfold Canvas.set_pixel
  rw [ht]
  dsimp only
  rw [hdi]
  dsimp only
  rw [hpi]

theorem writeCell_get_character (cv : Canvas) (i : ℕ) (ch : Character) (qc : ℕ × ℕ) :
    (writeCell cv i ch).get_character qc =
      if cv.data_index qc = some i then ch else cv.get_character qc := by
  unfold Canvas.get_character
  have hwidth : (writeCell cv i ch).data_index qc = cv.data_index qc := rfl
  rw [hwidth]
  cases hd : cv.data_index qc with
  | none =>
    rw [if_neg (fun h => Option.noConfusion h)]
  | some j =>
    show (((padTo cv.data (i + 1)).set i ch)[j]?).getD default = _
    rw [pad_set_getElem? cv.data (i + 1) i j (by omega) ch]
    by_cases hj : j = i
    · rw [if_pos hj, if_pos (by rw [hj])]
    · rw [if_neg hj, if_neg (fun h => hj (Option.some.inj h))]

theorem data_index_inj (w i i' r r' : ℕ) (hi : i < w) (hi' : i' < w)
    (h : i + w * r = i' + w * r') : i = i' ∧ r = r' := by
  have hmod : (i + w * r) % w = (i' + w * r') % w := by rw [h]
  rw [Nat.add_mul_mod_self_left, Nat.add_mul_mod_self_left,
    Nat.mod_eq_of_lt hi, Nat.mod_eq_of_lt hi'] at hmod
  refine ⟨hmod, ?_⟩
  subst hmod
  have hr : w * r = w * r' := by omega
  exact Nat.eq_of_mul_eq_mul_left (by omega) hr

theorem translate_pix_to_char_nonneg (q : ℤ × ℤ) (h : ¬(q.1 < 0 ∨ q.2 < 0)) :
    translate_pix_to_char q =
      some (((q.1 / 3).toNat, (q.2 / 5).toNat), q.1 % 3, q.2 % 5) := by
  unfold translate_pix_to_char
  rw [if_neg h]

theorem set_pixel_get_pixel_self (cv : Canvas) (p : ℤ × ℤ)
    (hx : 0 ≤ p.1) (hy : 0 ≤ p.2) (hw : (p.1 / 3).toNat < cv.width) (l : BitmapChar)
    (hc : cv.get_character ((p.1 / 3).toNat, (p.2 / 5).toNat) = Character.Bitmap l) :
    (cv.set_pixel p true).get_pixel p = true := by
  rw [set_pixel_eq_of_bitmap cv p true hx hy hw l hc]
  unfold Canvas.get_pixel
  rw [translate_pix_to_char_nonneg p (by omega)]
  dsimp only
  rw [writeCell_get_character,
    if_pos (by unfold Canvas.data_index; rw [if_neg (by omega)])]
  exact peek_poke_self l _ _ true (by omega) (by omega) (by omega) (by omega)

theorem set_pixel_get_pixel_other (cv : Canvas) (p q : ℤ × ℤ) (v : Bool)
    (hx : 0 ≤ p.1) (hy : 0 ≤ p.2) (hw : (p.1 / 3).toNat < cv.width) (l : BitmapChar)
    (hc : cv.get_character ((p.1 / 3).toNat, (p.2 / 5).toNat) = Character.Bitmap l)
    (hne : q ≠ p) :
    (cv.set_pixel p v).get_pixel q = cv.get_pixel q := by
  rw [set_pixel_eq_of_bitmap cv p v hx hy hw l hc]
  unfold Canvas.get_pixel
  by_cases hqneg : q.1 < 0 ∨ q.2 < 0
  · rw [show translate_pix_to_char q = none from by
      unfold translate_pix_to_char; rw [if_pos hqneg]]
  · rw [translate_pix_to_char_nonneg q hqneg]
    dsimp only
    rw [writeCell_get_character]
    by_cases hdq : cv.data_index ((q.1 / 3).toNat, (q.2 / 5).toNat) =
        some ((p.1 / 3).toNat + cv.width * (p.2 / 5).toNat)
    · rw [if_pos hdq]
      unfold Canvas.data_index at hdq
      by_cases hqw : (q.1 / 3).toNat ≥ cv.width
      · rw [if_pos hqw] at hdq
        exact Option.noConfusion hdq
      · rw [if_neg hqw] at hdq
        obtain ⟨hcol, hrow⟩ := data_index_inj cv.width _ _ _ _
          (by omega) hw (Option.some.inj hdq)
        have hdiv1 : q.1 / 3 = p.1 / 3 := by omega
        have hdiv2 : q.2 / 5 = p.2 / 5 := by omega
        have hsub : ¬(q.1 % 3 = p.1 % 3 ∧ q.2 % 5 = p.2 % 5) := by
          rintro ⟨h1, h2⟩
          exact hne (Prod.ext_iff.mpr ⟨by omega, by omega⟩)
        dsimp only
        rw [peek_poke_other l _ _ _ _ v hsub]
        have hcc : (((q.1 / 3).toNat, (q.2 / 5).toNat) : ℕ × ℕ) =
            (((p.1 / 3).toNat, (p.2 / 5).toNat) : ℕ × ℕ) := by
          rw [Prod.ext_iff]
          exact ⟨hcol, hrow⟩
        rw [hcc, hc]
    · rw [if_neg hdq]

theorem bresenhamLoop_one (octant : ℕ) (dx dy : ℤ) (s : ℤ × ℤ) (err : ℤ) :
    bresenhamLoop octant dx dy 1 s err = [fromOctant0 octant s] := by
  have h : bresenhamLoop octant dx dy 1 s err =
      fromOctant0 octant s ::
        (if err ≥ 0 then bresenhamLoop octant dx dy 0 (s.1 + 1, s.2 + 1) (err - dx + dy)
         else bresenhamLoop octant dx dy 0 (s.1 + 1, s.2) (err + dy)) := rfl
  rw [h]
  split <;> rfl

theorem bresenham_self (p : ℤ × ℤ) : bresenham p p = [p] := by
  have hoct : octantFromPoints p p = 0 := by
    unfold octantFromPoints
    norm_num
  unfold bresenham
  rw [hoct]
  dsimp only
  norm_num [toOctant0, bresenhamLoop_one, fromOctant0]

theorem draw_line_self (cv : Canvas) (a : ℚ × ℚ) :
    cv.draw_line a a = cv.set_pixel (cv.translate_in_to_pix a) true := by
  unfold Canvas.draw_line
  dsimp only
  rw [bresenham_self]
  rfl

/-- C9 counterexample: for the continuous coordinate `(-3, 0)` (unit scale)
the degenerate line `drawLine(a, a)` sets no pixel at all: the canvas buffer
stays empty and the pixel at a's own pixel coordinate still reads off. -/
theorem C9_counterexample :
    ((Canvas.new 9 (1, 1)).draw_line (-3, 0) (-3, 0)).data = [] ∧
      ((Canvas.new 9 (1, 1)).draw_line (-3, 0) (-3, 0)).get_pixel
        ((Canvas.new 9 (1, 1)).translate_in_to_pix (-3, 0)) = false := by
  have htip : (Canvas.new 9 (1, 1)).translate_in_to_pix (-3, 0) = (-3, 0) := by
    rw [Canvas_new_9]
    unfold Canvas.translate_in_to_pix
    norm_num [truncQ]
  rw [draw_line_self, htip, Canvas_new_9]
  exact ⟨by decide, by decide⟩

/-- C9, amended: `drawLine(a, a)` sets exactly the one pixel at a's own pixel
coordinate and leaves every other pixel unchanged, provided that pixel
coordinate is addressable (nonnegative, column within the declared width) and
its cell still holds a bitmap (is not a text cell); otherwise the call is a
no-op on the pixel state. -/
theorem C9_degenerate_line (cv : Canvas) (a : ℚ × ℚ) (l : BitmapChar)
    (hx : 0 ≤ (cv.translate_in_to_pix a).1) (hy : 0 ≤ (cv.translate_in_to_pix a).2)
    (hw : ((cv.translate_in_to_pix a).1 / 3).toNat < cv.width)
    (hc : cv.get_character (((cv.translate_in_to_pix a).1 / 3).toNat,
        ((cv.translate_in_to_pix a).2 / 5).toNat) = Character.Bitmap l) :
    (cv.draw_line a a).get_pixel (cv.translate_in_to_pix a) = true ∧
      ∀ q : ℤ × ℤ, q ≠ cv.translate_in_to_pix a →
        (cv.draw_line a a).get_pixel q = cv.get_pixel q := by
  rw [draw_line_self]
  exact ⟨set_pixel_get_pixel_self cv _ hx hy hw l hc,
    fun q hq => set_pixel_get_pixel_other cv _ q true hx hy hw l hc hq⟩

theorem tip_new9_11 : (Canvas.new 9 (1, 1)).translate_in_to_pix (1, 1) = (1, 1) := by
  rw [Canvas_new_9]
  unfold Canvas.translate_in_to_pix
  norm_num [truncQ]

theorem C9_witness :
    ((Canvas.new 9 (1, 1)).draw_line (1, 1) (1, 1)).get_pixel
        ((Canvas.new 9 (1, 1)).translate_in_to_pix (1, 1)) = true ∧
      ∀ q : ℤ × ℤ, q ≠ (Canvas.new 9 (1, 1)).translate_in_to_pix (1, 1) →
        ((Canvas.new 9 (1, 1)).draw_line (1, 1) (1, 1)).get_pixel q =
          (Canvas.new 9 (1, 1)).get_pixel q :=
  C9_degenerate_line (Canvas.new 9 (1, 1)) (1, 1) ⟨0⟩
    (by rw [tip_new9_11]; decide)
    (by rw [tip_new9_11]; decide)
    (by rw [tip_new9_11, Canvas_new_9]; decide)
    (by rw [tip_new9_11, Canvas_new_9]; decide)

/-- The `BitmapChar` values reachable through the public constructors and
operations: the all-off default, `from_bits` of any 16-bit input, and any
sequence of pixel writes. -/
inductive ReachableBitmap : BitmapChar → Prop where
  | dflt : ReachableBitmap ⟨0⟩
  | ofBits (b : ℕ) (hb : b < 65536) : ReachableBitmap (BitmapChar.from_bits b)
  | poked (c : BitmapChar) (x y : Int) (v : Bool) :
      ReachableBitmap c → ReachableBitmap (c.poke x y v)

theorem reachable_lt_32768 (c : BitmapChar) (h : ReachableBitmap c) :
    c.val < 32768 := by
  induction h with
  | dflt => norm_num
  | ofBits b hb => exact from_bits_val_lt_32768 b
  | poked c x y v hc ih => exact poke_val_lt_32768 c x y v ih

/-- C10: every reachable cell value is strictly below 32768 (bit 15 clear),
so glyph-table lookup into a 32768-entry table is always in bounds and never
fails for a reachable cell. -/
theorem C10_lookup_in_bounds (c : BitmapChar) (h : ReachableBitmap c) :
    c.val < 32768 ∧
      ∀ f : BitmapFont, f.data.length = 32768 → (translate? f c).isSome = true := by
  refine ⟨reachable_lt_32768 c h, fun f hf => ?_⟩
  unfold translate?
  have hlt : c.val < f.data.length := by rw [hf]; exact reachable_lt_32768 c h
  rw [List.getElem?_eq_getElem hlt]
  rfl

theorem C10_witness :
    (BitmapChar.from_bits 65535).val < 32768 ∧
      ∀ f : BitmapFont, f.data.length = 32768 →
        (translate? f (BitmapChar.from_bits 65535)).isSome = true :=
  C10_lookup_in_bounds (BitmapChar.from_bits 65535)
    (ReachableBitmap.ofBits 65535 (by norm_num))

/-- One output character of `debug_render` (canvas.rs lines 363-381), at
output column `x` and output row `y`: half-block glyphs from the two sampled
pixel rows, with the text-overlay exception at the middle row and column of a
text cell. -/
def debugCharAt (cv : Canvas) (x y : ℕ) : Char :=
  let upper : ℤ × ℤ := ((x : ℤ), (y * 2 : ℤ))
  let lower : ℤ × ℤ := ((x : ℤ), (y * 2 + 1 : ℤ))
  let blocks : Char :=
    match cv.get_pixel upper, cv.get_pixel lower with
    | true, true => '█'
    | true, false => '▀'
    | false, true => '▄'
    | false, false => ' '
  if x % 3 = 1 ∧ ((y * 2) % 5 = 2 ∨ (y * 2 + 1) % 5 = 2) then
    match translate_pix_to_char upper with
    | some (cc, _, _) =>
      match cv.get_character cc with
      | Character.Text c => c
      | Character.Bitmap _ => blocks
    | none => blocks
  else blocks

/-- Rust `str::trim_end`, dropping trailing whitespace characters. -/
def trimEnd (l : List Char) : List Char :=
  (l.reverse.dropWhile (fun c => c.isWhitespace)).reverse

/-- Character-row count of the grid as computed by `debug_render` (canvas.rs
line 358): `ceil(len / width)` by integer arithmetic. -/
def Canvas.in_height (cv : Canvas) : ℕ := (cv.data.length + cv.width - 1) / cv.width

/-- Model of `Canvas::debug_render` (canvas.rs lines 356-387) as the list of
emitted lines; one line per output row `y < out_height`, each trimmed of
trailing whitespace. -/
def Canvas.debug_render_lines (cv : Canvas) : List (List Char) :=
  (List.range (cv.in_height * 2 + (cv.in_height + 1) / 2)).map
    (fun y => trimEnd ((List.range (cv.width * 3)).map (fun x => debugCharAt cv x y)))

theorem debug_render_lines_length (cv : Canvas) :
    cv.debug_render_lines.length = 2 * cv.in_height + (cv.in_height + 1) / 2 := by
  unfold Canvas.debug_render_lines
  rw [List.length_map, List.length_range]
  ring_nf

theorem tip_45_05 : (⟨[], 4, (1, 1), []⟩ : Canvas).translate_in_to_pix (0, 5) = (0, 5) := by
  unfold Canvas.translate_in_to_pix
  norm_num [truncQ]

/-- C4 counterexample: `Canvas::new(9.0,(1,1))` has 4 columns; writing the
single character `'a'` at continuous coordinate `(0,5)` stores it in row 1,
giving a 5-cell buffer and `rowCount = 2` grid rows.  Debug rendering then
emits `2*2 + (2+1)/2 = 5` lines, but the claimed formula
`2*rowCount + ceil((rowCount+1)/2)` predicts 6. -/
theorem C4_counterexample :
    ((Canvas.new 9 (1, 1)).draw_string (0, 5) ['a']).in_height = 2 ∧
      ((Canvas.new 9 (1, 1)).draw_string (0, 5) ['a']).debug_render_lines.length = 5 ∧
      (5 : ℕ) ≠ 2 * 2 + (2 + 1 + 1) / 2 := by
  have htip : (⟨[], 4, (1, 1), []⟩ : Canvas).translate_in_to_char (0, 5) =
      some ((0, 1), 0, 0) := by
    unfold Canvas.translate_in_to_char
    rw [tip_45_05]
    decide
  rw [Canvas_new_9]
  unfold Canvas.draw_string
  rw [htip]
  dsimp only
  refine ⟨by decide, ?_, by decide⟩
  rw [debug_render_lines_length]
  decide

/-- C4, amended: for every canvas whose cell grid has `rowCount` character
rows, debug-mode rendering emits exactly
`2*rowCount + floor((rowCount+1)/2)` lines (equivalently
`2*rowCount + ceil(rowCount/2)`), not `2*rowCount + ceil((rowCount+1)/2)`. -/
theorem C4_debug_line_count (cv : Canvas) :
    cv.debug_render_lines.length = 2 * cv.in_height + (cv.in_height + 1) / 2 :=
  debug_render_lines_length cv

theorem foldl_min_ge (P : Int × Int → Bool) (f : Int × Int → ℝ) (e : ℝ) :
    ∀ (l : List (Int × Int)) (m : ℝ), e ≤ m → (∀ s ∈ l, P s = true → e ≤ f s) →
      e ≤ l.foldl (fun m s => if P s then min m (f s) else m) m := by
  intro l
  induction l with
  | nil => intro m hm _; exact hm
  | cons a t ih =>
    intro m hm hl
    by_cases hp : P a = true
    · simp only [List.foldl_cons, hp, if_true]
      exact ih _ (le_min hm (hl a (List.mem_cons_self a t) hp))
        (fun s hs hps => hl s (List.mem_cons_of_mem a hs) hps)
    · simp only [List.foldl_cons, hp, if_false, Bool.false_eq_true]
      exact ih _ hm (fun s hs hps => hl s (List.mem_cons_of_mem a hs) hps)

theorem foldl_min_le_init (P : Int × Int → Bool) (f : Int × Int → ℝ) :
    ∀ (l : List (Int × Int)) (m : ℝ),
      l.foldl (fun m s => if P s then min m (f s) else m) m ≤ m := by
  intro l
  induction l with
  | nil => intro m; exact le_refl m
  | cons a t ih =>
    intro m
    by_cases hp : P a = true
    · simp only [List.foldl_cons, hp, if_true]
      exact le_trans (ih _) (min_le_left _ _)
    · simp only [List.foldl_cons, hp, if_false, Bool.false_eq_true]
      exact ih m

theorem foldl_min_le_of_mem (P : Int × Int → Bool) (f : Int × Int → ℝ) :
    ∀ (l : List (Int × Int)) (m : ℝ) (s : Int × Int), s ∈ l → P s = true →
      l.foldl (fun m s => if P s then min m (f s) else m) m ≤ f s := by
  intro l
  induction l with
  | nil => intro m s hs; exact absurd hs (List.not_mem_nil s)
  | cons a t ih =>
    intro m s hs hps
    rcases List.mem_cons.mp hs with rfl | hst
    · simp only [List.foldl_cons, hps, if_true]
      exact le_trans (foldl_min_le_init P f t _) (min_le_right _ _)
    · by_cases hp : P a = true
      · simp only [List.foldl_cons, hp, if_true]
        exact ih _ s hst hps
      · simp only [List.foldl_cons, hp, if_false, Bool.false_eq_true]
        exact ih m s hst hps

theorem foldl_min_achieved (P : Int × Int → Bool) (f : Int × Int → ℝ) :
    ∀ (l : List (Int × Int)) (m : ℝ),
      l.foldl (fun m s => if P s then min m (f s) else m) m = m ∨
        ∃ s ∈ l, P s = true ∧
          l.foldl (fun m s => if P s then min m (f s) else m) m = f s := by
  intro l
  induction l with
  | nil => intro m; exact Or.inl rfl
  | cons a t ih =>
    intro m
    by_cases hp : P a = true
    · simp only [List.foldl_cons, hp, if_true]
      rcases ih (min m (f a)) with h | ⟨s, hs, hps, h⟩
      · rcases min_choice m (f a) with hm | hm
        · exact Or.inl (h.trans hm)
        · exact Or.inr ⟨a, List.mem_cons_self a t, hp, h.trans hm⟩
      · exact Or.inr ⟨s, List.mem_cons_of_mem a hs, hps, h⟩
    · simp only [List.foldl_cons, hp, if_false, Bool.false_eq_true]
      rcases ih m with h | ⟨s, hs, hps, h⟩
      · exact Or.inl h
      · exact Or.inr ⟨s, List.mem_cons_of_mem a hs, hps, h⟩

theorem foldl_min_no_contrib (P : Int × Int → Bool) (f : Int × Int → ℝ) :
    ∀ (l : List (Int × Int)) (m : ℝ), (∀ s ∈ l, P s = false) →
      l.foldl (fun m s => if P s then min m (f s) else m) m = m := by
  intro l
  induction l with
  | nil => intro m _; rfl
  | cons a t ih =>
    intro m hl
    have hpa : P a = false := hl a (List.mem_cons_self a t)
    simp only [List.foldl_cons, hpa, if_false, Bool.false_eq_true]
    exact ih m (fun s hs => hl s (List.mem_cons_of_mem a hs))

theorem one_le_sqrt_of_one_le (r : ℝ) (hr : 1 ≤ r) : (1 : ℝ) ≤ Real.sqrt r := by
  rw [show (1 : ℝ) = Real.sqrt 1 from (Real.sqrt_one).symm]
  exact Real.sqrt_le_sqrt hr

theorem offset_dist_le_sqrt_two (s : Int × Int) (hs : s ∈ offsets) :
    Real.sqrt ((s.1 * s.1 + s.2 * s.2 : ℤ) : ℝ) ≤ Real.sqrt 2 := by
  apply Real.sqrt_le_sqrt
  fin_cases hs <;> norm_num

theorem sqrt_two_lt_two : Real.sqrt 2 < 2 := by
  have h : Real.sqrt 2 < Real.sqrt 4 := Real.sqrt_lt_sqrt (by norm_num) (by norm_num)
  have h4 : Real.sqrt 4 = 2 := by
    rw [show (4 : ℝ) = 2 ^ 2 by norm_num, Real.sqrt_sq (by norm_num)]
  linarith

theorem pixelMin_nonneg (b : BitmapChar) (x y : Int) : 0 ≤ pixelMin b x y :=
  foldl_min_ge _ _ 0 offsets 2 (by norm_num) (fun s _ _ => Real.sqrt_nonneg _)

theorem pixelMin_eq_zero_iff (b : BitmapChar) (x y : Int) :
    pixelMin b x y = 0 ↔ b.peek x y = true := by
  constructor
  · intro h0
    by_contra hb
    have h1 : (1 : ℝ) ≤ pixelMin b x y := by
      apply foldl_min_ge _ _ 1 offsets 2 (by norm_num)
      intro s hs hps
      fin_cases hs <;>
        first
          | (exact absurd (by simpa using hps) hb)
          | (apply one_le_sqrt_of_one_le; norm_num)
    linarith
  · intro hb
    have hmem : ((0, 0) : Int × Int) ∈ offsets := by decide
    have hp : (fun s : Int × Int => b.peek (x + s.1) (y + s.2)) (0, 0) = true := by
      simpa using hb
    have hle := foldl_min_le_of_mem
      (fun s : Int × Int => b.peek (x + s.1) (y + s.2))
      (fun s : Int × Int => Real.sqrt ((s.1 * s.1 + s.2 * s.2 : ℤ) : ℝ))
      offsets 2 (0, 0) hmem hp
    have hz : Real.sqrt (((0 : ℤ) * 0 + 0 * 0 : ℤ) : ℝ) = 0 := by
      norm_num
    have hge := pixelMin_nonneg b x y
    have hle' : pixelMin b x y ≤ 0 := by
      calc pixelMin b x y ≤ _ := hle
        _ = 0 := hz
    linarith

theorem foldl_add_eq (g : Int × Int → ℝ) :
    ∀ (l : List (Int × Int)) (c : ℝ),
      l.foldl (fun s p => s + g p) c = c + (l.map g).sum := by
  intro l
  induction l with
  | nil => intro c; simp
  | cons a t ih =>
    intro c
    rw [List.foldl_cons, ih, List.map_cons, List.sum_cons]
    ring

/-- The one-directional cost is the sum, over the set pixels of `a`, of the
per-pixel minimum-distance charge against `other`. -/
theorem similarity_asym_eq_sum (a other : BitmapChar) :
    similarity_asym a other =
      (pixelCoords.map
        (fun p => if a.peek p.1 p.2 then pixelMin other p.1 p.2 else 0)).sum := by
  unfold similarity_asym
  rw [show (fun (sim : ℝ) (p : Int × Int) =>
        if a.peek p.1 p.2 then sim + pixelMin other p.1 p.2 else sim) =
      fun (sim : ℝ) (p : Int × Int) =>
        sim + (if a.peek p.1 p.2 then pixelMin other p.1 p.2 else 0) from
    funext fun sim => funext fun p => by
      by_cases h : a.peek p.1 p.2 = true <;> simp [h]]
  rw [foldl_add_eq]
  ring

theorem list_sum_eq_zero_iff :
    ∀ l : List ℝ, (∀ x ∈ l, 0 ≤ x) → (l.sum = 0 ↔ ∀ x ∈ l, x = 0) := by
  intro l
  induction l with
  | nil => intro _; simp
  | cons a t ih =>
    intro h
    have ha := h a (List.mem_cons_self a t)
    have ht : ∀ x ∈ t, 0 ≤ x := fun x hx => h x (List.mem_cons_of_mem a hx)
    rw [List.sum_cons]
    rw [add_eq_zero_iff_of_nonneg ha (List.sum_nonneg ht)]
    rw [ih ht]
    constructor
    · rintro ⟨h1, h2⟩ x hx
      rcases List.mem_cons.mp hx with rfl | hx
      · exact h1
      · exact h2 x hx
    · intro hall
      exact ⟨hall a (List.mem_cons_self a t),
        fun x hx => hall x (List.mem_cons_of_mem a hx)⟩

theorem similarity_asym_nonneg (a other : BitmapChar) : 0 ≤ similarity_asym a other := by
  rw [similarity_asym_eq_sum]
  apply List.sum_nonneg
  intro x hx
  rw [List.mem_map] at hx
  obtain ⟨p, _, rfl⟩ := hx
  by_cases h : a.peek p.1 p.2 = true
  · rw [if_pos h]; exact pixelMin_nonneg other p.1 p.2
  · rw [if_neg h]

theorem similarity_asym_eq_zero_iff (a other : BitmapChar) :
    similarity_asym a other = 0 ↔
      ∀ p ∈ pixelCoords, a.peek p.1 p.2 = true → other.peek p.1 p.2 = true := by
  rw [similarity_asym_eq_sum]
  rw [list_sum_eq_zero_iff _ (by
    intro x hx
    rw [List.mem_map] at hx
    obtain ⟨p, _, rfl⟩ := hx
    by_cases h : a.peek p.1 p.2 = true
    · rw [if_pos h]; exact pixelMin_nonneg other p.1 p.2
    · rw [if_neg h])]
  constructor
  · intro h p hp hpa
    have h0 := h _ (List.mem_map_of_mem _ hp)
    rw [if_pos hpa] at h0
    exact (pixelMin_eq_zero_iff other p.1 p.2).mp h0
  · intro h x hx
    rw [List.mem_map] at hx
    obtain ⟨p, hp, rfl⟩ := hx
    by_cases hpa : a.peek p.1 p.2 = true
    · rw [if_pos hpa]
      exact (pixelMin_eq_zero_iff other p.1 p.2).mpr (h p hp hpa)
    · rw [if_neg hpa]

theorem mem_pixelCoords (x y : Int) (hx0 : 0 ≤ x) (hx : x < 3)
    (hy0 : 0 ≤ y) (hy : y < 5) : ((x, y) : Int × Int) ∈ pixelCoords := by
  interval_cases x <;> interval_cases y <;> decide

/-- C6: the symmetric distance is the sum of the two one-directional costs
(hence symmetric), it vanishes exactly on pixel-identical cells, and the
one-directional cost charges each set pixel of `a` either the minimum
Euclidean distance to a set pixel of `other` within the 3x3 neighborhood
offsets, or the fixed penalty 2.0 when no neighborhood position is set. -/
theorem C6_similarity_metric (a b : BitmapChar) :
    similarity a b = similarity_asym a b + similarity_asym b a ∧
      similarity a b = similarity b a ∧
      (similarity a b = 0 ↔ ∀ x y : Int, a.peek x y = b.peek x y) ∧
      (similarity_asym a b =
        (pixelCoords.map
          (fun p => if a.peek p.1 p.2 then pixelMin b p.1 p.2 else 0)).sum) ∧
      ∀ x y : Int,
        ((∀ s ∈ offsets, b.peek (x + s.1) (y + s.2) = false) →
          pixelMin b x y = 2) ∧
        ((∃ s ∈ offsets, b.peek (x + s.1) (y + s.2) = true) →
          (∃ s ∈ offsets, b.peek (x + s.1) (y + s.2) = true ∧
            pixelMin b x y = Real.sqrt ((s.1 * s.1 + s.2 * s.2 : ℤ) : ℝ)) ∧
          ∀ s ∈ offsets, b.peek (x + s.1) (y + s.2) = true →
            pixelMin b x y ≤ Real.sqrt ((s.1 * s.1 + s.2 * s.2 : ℤ) : ℝ)) := by
  refine ⟨rfl, by unfold similarity; ring, ?_, similarity_asym_eq_sum a b, ?_⟩
  · unfold similarity
    rw [add_eq_zero_iff_of_nonneg (similarity_asym_nonneg a b) (similarity_asym_nonneg b a),
      similarity_asym_eq_zero_iff, similarity_asym_eq_zero_iff]
    constructor
    · rintro ⟨hab, hba⟩ x y
      by_cases hr : 0 ≤ x ∧ x < 3 ∧ 0 ≤ y ∧ y < 5
      · obtain ⟨hx0, hx, hy0, hy⟩ := hr
        have hmem := mem_pixelCoords x y hx0 hx hy0 hy
        cases hpa : a.peek x y with
        | true => exact (hab (x, y) hmem hpa).symm
        | false =>
          cases hpb : b.peek x y with
          | true => exact absurd (hba (x, y) hmem hpb) (by rw [hpa]; exact Bool.false_ne_true)
          | false => rfl
      · rw [peek_out_of_range a x y hr, peek_out_of_range b x y hr]
    · intro h
      refine ⟨fun p _ hpa => ?_, fun p _ hpb => ?_⟩
      · rw [← h p.1 p.2]; exact hpa
      · rw [h p.1 p.2]; exact hpb
  · intro x y
    constructor
    · intro hnone
      exact foldl_min_no_contrib _ _ offsets 2 hnone
    · rintro ⟨s0, hs0, hps0⟩
      have hub := foldl_min_le_of_mem
        (fun s : Int × Int => b.peek (x + s.1) (y + s.2))
        (fun s : Int × Int => Real.sqrt ((s.1 * s.1 + s.2 * s.2 : ℤ) : ℝ))
        offsets 2 s0 hs0 hps0
      refine ⟨?_, fun s hs hps => foldl_min_le_of_mem _ _ offsets 2 s hs hps⟩
      rcases foldl_min_achieved
        (fun s : Int × Int => b.peek (x + s.1) (y + s.2))
        (fun s : Int × Int => Real.sqrt ((s.1 * s.1 + s.2 * s.2 : ℤ) : ℝ))
        offsets 2 with h | ⟨s, hs, hps, h⟩
      · exfalso
        have hlt : pixelMin b x y < 2 :=
          lt_of_le_of_lt (le_trans hub (offset_dist_le_sqrt_two s0 hs0)) sqrt_two_lt_two
        rw [show pixelMin b x y = _ from h] at hlt
        exact lt_irrefl 2 hlt
      · exact ⟨s, hs, hps, h⟩

theorem C6_witness_check :
    similarity ⟨0⟩ ⟨0⟩ = 0 := by
  have h := (C6_similarity_metric ⟨0⟩ ⟨0⟩).2.2.1
  exact h.mpr (fun x y => rfl)

end DotTxt
